import Mathlib

/-!
Verification development for the hardware sequencing servers of the
hubris repository:

* `Sidecar` models src/drv/sidecar-seq-server/src/main.rs — the power-state
  machine (`set_state`, `get_state`) and the clock-configuration loader
  (`load_clock_config`).
* `Gimlet` models src/drv/gimlet-seq-server/src/main.rs — the safe GPIO
  defaults, the ordered rail bring-up, and the FPGA bitstream loading loop
  (`reprogram_fpga` and its unbounded outer retry).

Hardware registers and polled input pins are modelled as oracles
(`Nat → Nat` or `Nat → Bool` giving the value returned by the i-th read);
bus writes that the code performs with `.unwrap()` are modelled as total
(a bus fault halts the process and is outside this model).
-/

namespace Sidecar

/-- Power states of the sidecar sequencer (from drv-sidecar-seq-api):
`A2` is standby, `A0` is active. -/
inductive PowerState where
  | A2
  | A0
  deriving DecidableEq

/-- Tofino2Vid from main.rs lines 30–41: the eight valid voltage-ID
codes plus the `Invalid` sentinel. -/
inductive Tofino2Vid where
  | Invalid
  | V0P922
  | V0P893
  | V0P867
  | V0P847
  | V0P831
  | V0P815
  | V0P790
  | V0P759
  deriving DecidableEq

/-- Errors of drv-sidecar-seq-api used by this server.  In the source,
`ClockConfigFailed` is a unit variant: it is constructed without any
argument (main.rs line 272), so it carries no packet index. -/
inductive SeqError where
  | IllegalTransition
  | SequencerTimeout
  | InvalidVid
  | ClockConfigFailed
  deriving DecidableEq

/-- State of the controller-FPGA registers and the voltage regulator as
seen by the server.  `seqStateReads i` is the value returned by the i-th
read of `Addr::TOFINO_SEQ_STATE`; `vidReg` is the value read from
`Addr::TOFINO_VID`; `voutMv` is the last value programmed into the
RAA229618 regulator, in millivolts (`none` if never programmed). -/
structure TofinoHw where
  tofinoEn : Nat
  seqStateReads : Nat → Nat
  vidReg : Nat
  voutMv : Option Nat

/-- The mutable fields of `ServerImpl` relevant to sequencing:
`state` and `vid` (main.rs lines 65–72). -/
structure Server where
  state : PowerState
  vid : Tofino2Vid
  deriving DecidableEq

/-- `set_tofino_enabled` (main.rs lines 118–124): writes 1 or 0 to the
`TOFINO_EN` register. -/
def set_tofino_enabled (hw : TofinoHw) (enabled : Bool) : TofinoHw :=
  { hw with tofinoEn := if enabled then 1 else 0 }

/-- The `vid` decode of `get_tofino_vid` (main.rs lines 154–164): the raw
byte read from `TOFINO_VID` is matched against the eight 4-bit codes,
anything else maps to `Invalid`. -/
def decodeVid (v : Nat) : Tofino2Vid :=
  if v = 0b1111 then Tofino2Vid.V0P922
  else if v = 0b1110 then Tofino2Vid.V0P893
  else if v = 0b1101 then Tofino2Vid.V0P867
  else if v = 0b1100 then Tofino2Vid.V0P847
  else if v = 0b1011 then Tofino2Vid.V0P831
  else if v = 0b1010 then Tofino2Vid.V0P815
  else if v = 0b1001 then Tofino2Vid.V0P790
  else if v = 0b1000 then Tofino2Vid.V0P759
  else Tofino2Vid.Invalid

/-- Voltage set-point of `apply_vid` (main.rs lines 183–193), in
millivolts.  `Invalid` has no set-point (`none`): in the source that arm
is an unreachable-by-construction trap, and `set_state` only calls
`apply_vid` after excluding `Invalid`. -/
def vid_mv : Tofino2Vid → Option Nat
  | Tofino2Vid.Invalid => none
  | Tofino2Vid.V0P922 => some 922
  | Tofino2Vid.V0P893 => some 893
  | Tofino2Vid.V0P867 => some 867
  | Tofino2Vid.V0P847 => some 847
  | Tofino2Vid.V0P831 => some 831
  | Tofino2Vid.V0P815 => some 815
  | Tofino2Vid.V0P790 => some 790
  | Tofino2Vid.V0P759 => some 759

/-- `apply_vid` (main.rs lines 169–194): programs the vddcore regulator
with the set-point of the sampled VID. -/
def apply_vid (v : Tofino2Vid) (hw : TofinoHw) : TofinoHw :=
  { hw with voutMv := vid_mv v }

/-- The polling loop of `set_state` (main.rs lines 223–230):

    let mut i = 0;
    let mut seq_state = self.get_tofino_seq_state();
    while i < 5 && seq_state < 9 { sleep(10); i += 1; seq_state = read; }

`pollFrom reads i s fuel` runs the loop body from counter `i` and last
read value `s`.  The fuel only bounds the structural recursion: starting
from `i = 0` with fuel 5, the counter reaches 5 exactly when the fuel is
exhausted, so the guard `i < 5` is false there and the bounded recursion
computes the same result as the source loop (`pollSeq_post` below checks
that the loop guard is false at exit). -/
def pollFrom (reads : Nat → Nat) : Nat → Nat → Nat → Nat × Nat
  | i, s, 0 => (i, s)
  | i, s, fuel + 1 =>
    if i < 5 ∧ s < 9 then pollFrom reads (i + 1) (reads (i + 1)) fuel
    else (i, s)

/-- The whole polling phase: the initial read followed by the bounded
loop; returns the final loop counter and the final `seq_state` value. -/
def pollSeq (reads : Nat → Nat) : Nat × Nat :=
  pollFrom reads 0 (reads 0) 5

/-- `set_state` (main.rs lines 206–257).  Takes the server state, the
hardware state and the requested power state; returns the result sent to
the caller together with the new server and hardware states. -/
def set_state (srv : Server) (hw : TofinoHw) (req : PowerState) :
    Except SeqError Unit × Server × TofinoHw :=
  match srv.state, req with
  | PowerState.A2, PowerState.A0 =>
    let hw1 := set_tofino_enabled hw true
    let ps := pollSeq hw1.seqStateReads
    if ps.2 < 9 then
      (Except.error SeqError.SequencerTimeout, srv, hw1)
    else
      let v := decodeVid hw1.vidReg
      let srv1 : Server := { srv with vid := v }
      if v = Tofino2Vid.Invalid then
        (Except.error SeqError.InvalidVid, srv1, set_tofino_enabled hw1 false)
      else
        (Except.ok (), { srv1 with state := PowerState.A0 }, apply_vid v hw1)
  | PowerState.A0, PowerState.A2 =>
    (Except.ok (), { srv with state := PowerState.A2 }, set_tofino_enabled hw false)
  | _, _ => (Except.error SeqError.IllegalTransition, srv, hw)

/-- `get_state` (main.rs lines 198–204): returns the stored state. -/
def get_state (srv : Server) : Except SeqError PowerState :=
  Except.ok srv.state

/-- Construction of `ServerImpl` at process start (main.rs lines
320–327): the state is the literal `PowerState::A2` and the vid is
`Tofino2Vid::Invalid`.  The hardware argument records that startup reads
nothing from the hardware to compute the initial state (the only
controller access in `main` is `valid_ident`, whose result is logged and
otherwise ignored). -/
def startServer (_hw : TofinoHw) : Server :=
  { state := PowerState.A2, vid := Tofino2Vid.Invalid }

/-- Ring-buffer trace entries of `load_clock_config` (main.rs lines
49–51): a write attempt for a packet index, its success, or its failure. -/
inductive ClockEv where
  | write (packet : Nat)
  | success (packet : Nat)
  | failed (packet : Nat)
  deriving DecidableEq

/-- Modelled from the spec: the payload iterator
`payload::idt8a3xxxx_payload` is generated code not present under src/;
per the spec it applies the given closure to each packet of an ordered,
externally produced sequence of opaque byte buffers, stopping at the
first `Err`.  The closure body here is from main.rs lines 267–281:
each packet is written over the bus (`writeOk p` gives the outcome of
the write carrying packet counter `p`); on failure the loader returns
`SeqError::ClockConfigFailed` at once, on success the counter is
incremented and iteration continues. -/
def loadClockGo (writeOk : Nat → Bool) (packet : Nat) :
    List (List Nat) → Except SeqError Unit × List ClockEv
  | [] => (Except.ok (), [])
  | _ :: rest =>
    if writeOk packet then
      let r := loadClockGo writeOk (packet + 1) rest
      (r.1, ClockEv.write packet :: ClockEv.success packet :: r.2)
    else
      (Except.error SeqError.ClockConfigFailed,
        [ClockEv.write packet, ClockEv.failed packet])

/-- `load_clock_config` (main.rs lines 259–284): returns the result sent
to the caller and the diagnostic trace. -/
def load_clock_config (writeOk : Nat → Bool) (payload : List (List Nat)) :
    Except SeqError Unit × List ClockEv :=
  loadClockGo writeOk 0 payload

end Sidecar

namespace Sidecar

theorem pollFrom_timeout (reads : Nat → Nat)
    (hlow : ∀ j, j ≤ 5 → reads j < 9) :
    ∀ fuel i, i + fuel = 5 → pollFrom reads i (reads i) fuel = (5, reads 5) := by
  intro fuel
  induction fuel with
  | zero =>
    intro i h
    obtain rfl : i = 5 := by omega
    rfl
  | succ f ih =>
    intro i h
    have hi : i < 5 := by omega
    have hs : reads i < 9 := hlow i (by omega)
    simp only [pollFrom, if_pos (And.intro hi hs)]
    exact ih (i + 1) (by omega)

theorem pollSeq_timeout (reads : Nat → Nat)
    (hlow : ∀ j, j ≤ 5 → reads j < 9) :
    pollSeq reads = (5, reads 5) :=
  pollFrom_timeout reads hlow 5 0 rfl

theorem pollFrom_post (reads : Nat → Nat) :
    ∀ fuel i s, i + fuel = 5 →
      ¬((pollFrom reads i s fuel).1 < 5 ∧ (pollFrom reads i s fuel).2 < 9) := by
  intro fuel
  induction fuel with
  | zero =>
    intro i s h
    obtain rfl : i = 5 := by omega
    simp [pollFrom]
  | succ f ih =>
    intro i s h
    by_cases hc : i < 5 ∧ s < 9
    · simp only [pollFrom, if_pos hc]
      exact ih (i + 1) _ (by omega)
    · simp only [pollFrom, if_neg hc]
      exact hc

/-- The fuel bound of `pollFrom` is exact: the polling phase ends only
when the loop guard `i < 5 && seq_state < 9` of the source is false, so
the bounded recursion computes the same result as the source loop. -/
theorem pollSeq_post (reads : Nat → Nat) :
    ¬((pollSeq reads).1 < 5 ∧ (pollSeq reads).2 < 9) :=
  pollFrom_post reads 5 0 (reads 0) rfl

theorem set_state_timeout_aux (srv : Server) (hw : TofinoHw)
    (hcur : srv.state = PowerState.A2)
    (hlow : ∀ i, i ≤ 5 → hw.seqStateReads i < 9) :
    set_state srv hw PowerState.A0 =
      (Except.error SeqError.SequencerTimeout, srv, set_tofino_enabled hw true) := by
  obtain ⟨st, vd⟩ := srv
  simp only at hcur
  subst hcur
  have hpoll : pollSeq hw.seqStateReads = (5, hw.seqStateReads 5) :=
    pollSeq_timeout hw.seqStateReads hlow
  have h5 : hw.seqStateReads 5 < 9 := hlow 5 (le_refl 5)
  simp only [set_state, set_tofino_enabled]
  rw [show ({ hw with tofinoEn := if true then 1 else 0 } : TofinoHw).seqStateReads
        = hw.seqStateReads from rfl, hpoll]
  simp [h5]

/-- C1: from standby (A2), a `set_state(A0)` request whose sequencer
status reads all stay below 9 enables the Tofino (final `TOFINO_EN` is
1), fails with `SequencerTimeout`, and returns the server unchanged
(state still A2). -/
theorem set_state_active_timeout (srv : Server) (hw : TofinoHw)
    (hcur : srv.state = PowerState.A2)
    (hlow : ∀ i, i ≤ 5 → hw.seqStateReads i < 9) :
    set_state srv hw PowerState.A0 =
      (Except.error SeqError.SequencerTimeout, srv, set_tofino_enabled hw true) ∧
    (set_tofino_enabled hw true).tofinoEn = 1 ∧
    (set_state srv hw PowerState.A0).2.1.state = PowerState.A2 := by
  have h := set_state_timeout_aux srv hw hcur hlow
  exact ⟨h, rfl, by rw [h]; exact hcur⟩

def srvA2 : Server := { state := PowerState.A2, vid := Tofino2Vid.Invalid }

def srvA0 : Server := { state := PowerState.A0, vid := Tofino2Vid.V0P922 }

def hwLow : TofinoHw :=
  { tofinoEn := 0, seqStateReads := fun _ => 0, vidReg := 0, voutMv := none }

def hwHigh : TofinoHw :=
  { tofinoEn := 0, seqStateReads := fun _ => 9, vidReg := 0, voutMv := none }

theorem set_state_active_timeout_witness :
    set_state srvA2 hwLow PowerState.A0 =
      (Except.error SeqError.SequencerTimeout, srvA2, set_tofino_enabled hwLow true) ∧
    (set_tofino_enabled hwLow true).tofinoEn = 1 ∧
    (set_state srvA2 hwLow PowerState.A0).2.1.state = PowerState.A2 :=
  set_state_active_timeout srvA2 hwLow rfl
    (fun i _ => by show (0 : Nat) < 9; decide)

/-- C10: on the `SequencerTimeout` path there is no rollback: the
Tofino enable register is left at 1 while the reported state stays A2
(standby), unlike the `InvalidVid` path which writes it back to 0. -/
theorem set_state_timeout_leaves_enabled (srv : Server) (hw : TofinoHw)
    (hcur : srv.state = PowerState.A2)
    (hlow : ∀ i, i ≤ 5 → hw.seqStateReads i < 9) :
    (set_state srv hw PowerState.A0).1 = Except.error SeqError.SequencerTimeout ∧
    (set_state srv hw PowerState.A0).2.2.tofinoEn = 1 ∧
    (set_state srv hw PowerState.A0).2.1.state = PowerState.A2 := by
  rw [set_state_timeout_aux srv hw hcur hlow]
  exact ⟨rfl, rfl, hcur⟩

theorem set_state_timeout_leaves_enabled_witness :
    (set_state srvA2 hwLow PowerState.A0).1 = Except.error SeqError.SequencerTimeout ∧
    (set_state srvA2 hwLow PowerState.A0).2.2.tofinoEn = 1 ∧
    (set_state srvA2 hwLow PowerState.A0).2.1.state = PowerState.A2 :=
  set_state_timeout_leaves_enabled srvA2 hwLow rfl
    (fun i _ => by show (0 : Nat) < 9; decide)

/-- C2: from standby (A2), a `set_state(A0)` request whose polling phase
reaches phase ≥ 9 but whose sampled VID decodes to `Invalid` rolls the
Tofino enable back to 0, fails with `InvalidVid`, leaves the state at A2,
and does not program the regulator (`voutMv` unchanged). -/
theorem set_state_active_invalid_vid (srv : Server) (hw : TofinoHw)
    (hcur : srv.state = PowerState.A2)
    (hreach : 9 ≤ (pollSeq hw.seqStateReads).2)
    (hvid : decodeVid hw.vidReg = Tofino2Vid.Invalid) :
    set_state srv hw PowerState.A0 =
      (Except.error SeqError.InvalidVid,
        { srv with vid := Tofino2Vid.Invalid },
        { hw with tofinoEn := 0 }) ∧
    ({ hw with tofinoEn := 0 } : TofinoHw).voutMv = hw.voutMv ∧
    ({ srv with vid := Tofino2Vid.Invalid } : Server).state = PowerState.A2 := by
  obtain ⟨st, vd⟩ := srv
  simp only at hcur
  subst hcur
  refine ⟨?_, rfl, rfl⟩
  simp only [set_state, set_tofino_enabled]
  rw [show ({ hw with tofinoEn := if true then 1 else 0 } : TofinoHw).seqStateReads
        = hw.seqStateReads from rfl,
      show ({ hw with tofinoEn := if true then 1 else 0 } : TofinoHw).vidReg
        = hw.vidReg from rfl, hvid]
  simp [Nat.not_lt.mpr hreach]

theorem set_state_active_invalid_vid_witness :
    set_state srvA2 hwHigh PowerState.A0 =
      (Except.error SeqError.InvalidVid,
        { srvA2 with vid := Tofino2Vid.Invalid },
        { hwHigh with tofinoEn := 0 }) ∧
    ({ hwHigh with tofinoEn := 0 } : TofinoHw).voutMv = hwHigh.voutMv ∧
    ({ srvA2 with vid := Tofino2Vid.Invalid } : Server).state = PowerState.A2 :=
  set_state_active_invalid_vid srvA2 hwHigh rfl (by decide) (by decide)

/-- C8: every (current, requested) pair other than (A2, A0) and
(A0, A2) — in particular A2→A2 and A0→A0 — fails with
`IllegalTransition` and returns the server and the hardware unchanged:
no register is written and the enable sequence is not re-run. -/
theorem set_state_illegal_transition (srv : Server) (hw : TofinoHw)
    (req : PowerState)
    (h1 : ¬(srv.state = PowerState.A2 ∧ req = PowerState.A0))
    (h2 : ¬(srv.state = PowerState.A0 ∧ req = PowerState.A2)) :
    set_state srv hw req = (Except.error SeqError.IllegalTransition, srv, hw) := by
  obtain ⟨st, vd⟩ := srv
  cases st <;> cases req <;> simp_all [set_state]

theorem set_state_illegal_transition_witness :
    set_state srvA0 hwLow PowerState.A0 =
      (Except.error SeqError.IllegalTransition, srvA0, hwLow) :=
  set_state_illegal_transition srvA0 hwLow PowerState.A0
    (by decide) (by decide)

end Sidecar


namespace Sidecar

def ps5 : List (List Nat) := [[0], [1], [2], [3], [4]]

def okFail2 : Nat → Bool := fun p => p != 2

def okFail0 : Nat → Bool := fun _ => false

/-- C3 counterexample: over the same 5-packet payload, a run whose third
write (packet index 2) fails and a run whose first write (packet index 0)
fails return the very same error value `SeqError.ClockConfigFailed` to
the caller, even though their diagnostic traces show different failing
indices — so the failure returned to the caller does not identify the
failing packet index (only the trace does). -/
theorem load_clock_config_error_has_no_index :
    (load_clock_config okFail2 ps5).1 = Except.error SeqError.ClockConfigFailed ∧
    (load_clock_config okFail0 ps5).1 = Except.error SeqError.ClockConfigFailed ∧
    (load_clock_config okFail2 ps5).1 = (load_clock_config okFail0 ps5).1 ∧
    (load_clock_config okFail2 ps5).2 =
      [ClockEv.write 0, ClockEv.success 0, ClockEv.write 1, ClockEv.success 1,
       ClockEv.write 2, ClockEv.failed 2] ∧
    (load_clock_config okFail0 ps5).2 = [ClockEv.write 0, ClockEv.failed 0] :=
  ⟨rfl, rfl, rfl, rfl, rfl⟩

/-- Trace of `k` successful packet writes starting at packet counter
`p`: write and success events for `p, p + 1, …, p + k - 1`, in order. -/
def okEvs (p : Nat) : Nat → List ClockEv
  | 0 => []
  | k + 1 => ClockEv.write p :: ClockEv.success p :: okEvs (p + 1) k

theorem okEvs_write_mem :
    ∀ (k p j : Nat), ClockEv.write j ∈ okEvs p k ↔ (p ≤ j ∧ j < p + k) := by
  intro k
  induction k with
  | zero =>
    intro p j
    simp [okEvs]
  | succ n ih =>
    intro p j
    simp [okEvs, ih (p + 1) j]
    omega

theorem loadClockGo_first_failure (writeOk : Nat → Bool) :
    ∀ (payload : List (List Nat)) (p k : Nat),
      k < payload.length → writeOk (p + k) = false →
      (∀ j, j < k → writeOk (p + j) = true) →
      loadClockGo writeOk p payload =
        (Except.error SeqError.ClockConfigFailed,
          okEvs p k ++ [ClockEv.write (p + k), ClockEv.failed (p + k)]) := by
  intro payload
  induction payload with
  | nil =>
    intro p k hk _ _
    simp at hk
  | cons b rest ih =>
    intro p k hk hfail hpre
    cases k with
    | zero =>
      have h0 : writeOk p = false := by simpa using hfail
      simp [loadClockGo, h0, okEvs]
    | succ k =>
      have h0 : writeOk p = true := by
        have := hpre 0 (Nat.succ_pos k)
        simpa using this
      have hfail1 : writeOk (p + 1 + k) = false := by
        have harg : p + 1 + k = p + (k + 1) := by omega
        rw [harg]; exact hfail
      have hpre1 : ∀ j, j < k → writeOk (p + 1 + j) = true := by
        intro j hj
        have harg : p + 1 + j = p + (j + 1) := by omega
        rw [harg]
        exact hpre (j + 1) (by omega)
      have hrec := ih (p + 1) k (by simpa using hk) hfail1 hpre1
      simp only [loadClockGo, h0, if_true, hrec, okEvs]
      rw [show p + 1 + k = p + (k + 1) by omega]
      rfl

/-- C3 amended: `load_clock_config` writes the packets over the bus in
order; on the first failing write (packet index `k`) it aborts at once —
a write is attempted exactly for the packets of index at most `k`, later
packets are never attempted — and the caller receives the index-free
error `ClockConfigFailed`: the failing packet index is identified only
in the diagnostic trace (the `ClockEv.failed k` entry), not in the
returned failure. -/
theorem load_clock_config_first_failure (writeOk : Nat → Bool)
    (payload : List (List Nat)) (k : Nat)
    (hk : k < payload.length) (hfail : writeOk k = false)
    (hpre : ∀ j, j < k → writeOk j = true) :
    load_clock_config writeOk payload =
      (Except.error SeqError.ClockConfigFailed,
        okEvs 0 k ++ [ClockEv.write k, ClockEv.failed k]) ∧
    (∀ j, ClockEv.write j ∈ (load_clock_config writeOk payload).2 ↔ j ≤ k) := by
  have h := loadClockGo_first_failure writeOk payload 0 k hk
    (by simpa using hfail) (fun j hj => by simpa using hpre j hj)
  have h0 : load_clock_config writeOk payload =
      (Except.error SeqError.ClockConfigFailed,
        okEvs 0 k ++ [ClockEv.write k, ClockEv.failed k]) := by
    simpa [load_clock_config] using h
  refine ⟨h0, ?_⟩
  intro j
  rw [h0]
  simp [okEvs_write_mem k 0 j]
  omega

theorem load_clock_config_first_failure_witness :
    (load_clock_config okFail2 ps5 =
      (Except.error SeqError.ClockConfigFailed,
        okEvs 0 2 ++ [ClockEv.write 2, ClockEv.failed 2])) ∧
    (∀ j, ClockEv.write j ∈ (load_clock_config okFail2 ps5).2 ↔ j ≤ 2) :=
  load_clock_config_first_failure okFail2 ps5 2 (by decide) (by decide)
    (fun j hj => by interval_cases j <;> decide)

def hwOn : TofinoHw :=
  { tofinoEn := 1, seqStateReads := fun _ => 0, vidReg := 0, voutMv := none }

def hwOff : TofinoHw :=
  { tofinoEn := 0, seqStateReads := fun _ => 0, vidReg := 0, voutMv := none }

/-- C9 counterexample: the state reported right after process start is
not reconstructed from hardware readback — `startServer` produces the
very same server (reporting A2, standby) whether the hardware readback
shows the Tofino enabled (`hwOn`, as after a restart while the device is
powered) or disabled (`hwOff`), so a restart while the device is powered
reports standby regardless of the hardware. -/
theorem startServer_ignores_readback :
    get_state (startServer hwOn) = Except.ok PowerState.A2 ∧
    hwOn.tofinoEn = 1 ∧ hwOff.tofinoEn = 0 ∧
    startServer hwOn = startServer hwOff :=
  ⟨rfl, rfl, rfl, rfl⟩

/-- C9 amended: no sequencing state persists across restarts, but the
initial state is not read back from hardware either: at every process
start the stored PowerState is unconditionally initialized to A2
(standby) and the stored VID to Invalid, whatever the hardware readback
shows, and `get_state` then reports A2. -/
theorem startServer_state_constant (hw : TofinoHw) :
    startServer hw = { state := PowerState.A2, vid := Tofino2Vid.Invalid } ∧
    get_state (startServer hw) = Except.ok PowerState.A2 :=
  ⟨rfl, rfl⟩

end Sidecar

namespace Gimlet

/-- Pin modes used by the sequencing GPIO configuration. -/
inductive PinMode where
  | input
  | output
  deriving DecidableEq

/-- GPIO state: per port (numbered by the gpio_api port letter) the mode
of each pin and the 16-bit output data register.  `configure` sets pin
modes only — it does not write the output data register: as the source
comments note (main.rs lines 50–58), configuring an already-driven line
as an output keeps driving it at whatever level it was left in. -/
structure Gpio where
  mode : Nat → Nat → PinMode
  odr : Nat → Nat

def configure (g : Gpio) (port mask : Nat) (m : PinMode) : Gpio :=
  { g with
    mode := fun p b => if p = port ∧ Nat.testBit mask b then m else g.mode p b }

/-- `gpio.set_reset(port, set_mask, clear_mask)`: sets the bits of
`set_mask` and clears the bits of `clear_mask` in the port's output data
register (the masks are disjoint at every call site here). -/
def set_reset (g : Gpio) (port setMask clearMask : Nat) : Gpio :=
  { g with
    odr := fun p =>
      if p = port then (g.odr p ||| setMask) &&& (65535 ^^^ clearMask)
      else g.odr p }

/-- Board constants of the gimlet-1 branch of the cfg_if block
(main.rs lines 365–371): ports are numbered by letter, A = 0, C = 2. -/
def ENABLES_PORT : Nat := 0

def ENABLE_V1P2_MASK : Nat := 1 <<< 15

def ENABLE_V3P3_MASK : Nat := 1 <<< 4

def PGS_PORT : Nat := 2

def PG_V1P2_MASK : Nat := 1 <<< 7

def PG_V3P3_MASK : Nat := 1 <<< 6

/-- The safe-defaults GPIO setup at the top of `main` (main.rs lines
36–68): unconditionally configure the power-good detects as inputs and
the rail-enable lines as outputs.  No output level is written. -/
def initialize_safe_defaults (g : Gpio) : Gpio :=
  configure
    (configure g PGS_PORT (PG_V1P2_MASK ||| PG_V3P3_MASK) PinMode.input)
    ENABLES_PORT (ENABLE_V1P2_MASK ||| ENABLE_V3P3_MASK) PinMode.output

theorem initialize_safe_defaults_odr (g : Gpio) :
    (initialize_safe_defaults g).odr = g.odr := rfl

theorem initialize_safe_defaults_modes (g : Gpio) :
    (initialize_safe_defaults g).mode PGS_PORT 7 = PinMode.input ∧
    (initialize_safe_defaults g).mode PGS_PORT 6 = PinMode.input ∧
    (initialize_safe_defaults g).mode ENABLES_PORT 15 = PinMode.output ∧
    (initialize_safe_defaults g).mode ENABLES_PORT 4 = PinMode.output := by
  refine ⟨?_, ?_, ?_, ?_⟩ <;>
    simp [initialize_safe_defaults, configure, PGS_PORT, ENABLES_PORT,
      PG_V1P2_MASK, PG_V3P3_MASK, ENABLE_V1P2_MASK, ENABLE_V3P3_MASK]
  all_goals exact fun h => absurd h (by decide)

/-- C7: `initialize_safe_defaults` configures the power-good sense lines
as inputs and the rail-enable lines as outputs without writing any
output level: invoking it any number of times never changes the driven
level of any pin — in particular an already-enabled rail is never
toggled off — while each invocation (re)applies the input mode to the
power-good pins and the output mode to the enable pins. -/
theorem initialize_safe_defaults_idempotent_on (g : Gpio) (n : Nat) :
    (initialize_safe_defaults^[n] g).odr = g.odr ∧
    (∀ b, Nat.testBit ((initialize_safe_defaults^[n] g).odr ENABLES_PORT) b
        = Nat.testBit (g.odr ENABLES_PORT) b) ∧
    (0 < n →
      (initialize_safe_defaults^[n] g).mode PGS_PORT 7 = PinMode.input ∧
      (initialize_safe_defaults^[n] g).mode PGS_PORT 6 = PinMode.input ∧
      (initialize_safe_defaults^[n] g).mode ENABLES_PORT 15 = PinMode.output ∧
      (initialize_safe_defaults^[n] g).mode ENABLES_PORT 4 = PinMode.output) := by
  have hodr : ∀ m, (initialize_safe_defaults^[m] g).odr = g.odr := by
    intro m
    induction m with
    | zero => rfl
    | succ m ih =>
      rw [Function.iterate_succ_apply', initialize_safe_defaults_odr, ih]
  refine ⟨hodr n, fun b => by rw [hodr n], ?_⟩
  intro hn
  obtain ⟨m, rfl⟩ : ∃ m, n = m + 1 := ⟨n - 1, by omega⟩
  rw [Function.iterate_succ_apply']
  exact initialize_safe_defaults_modes _

def gpio0 : Gpio :=
  { mode := fun _ _ => PinMode.input, odr := fun p => if p = 0 then 32768 else 0 }

theorem initialize_safe_defaults_idempotent_on_witness :
    (initialize_safe_defaults^[1] gpio0).odr = gpio0.odr ∧
    (∀ b, Nat.testBit ((initialize_safe_defaults^[1] gpio0).odr ENABLES_PORT) b
        = Nat.testBit (gpio0.odr ENABLES_PORT) b) ∧
    (0 < 1 →
      (initialize_safe_defaults^[1] gpio0).mode PGS_PORT 7 = PinMode.input ∧
      (initialize_safe_defaults^[1] gpio0).mode PGS_PORT 6 = PinMode.input ∧
      (initialize_safe_defaults^[1] gpio0).mode ENABLES_PORT 15 = PinMode.output ∧
      (initialize_safe_defaults^[1] gpio0).mode ENABLES_PORT 4 = PinMode.output) :=
  initialize_safe_defaults_idempotent_on gpio0 1

end Gimlet

namespace Gimlet

/-- CHUNK_SIZE from `reprogram_fpga` (main.rs line 275). -/
def CHUNK_SIZE : Nat := 512

/-- `BITSTREAM.chunks(CHUNK_SIZE)` (main.rs line 276), via a fuel
argument for structural recursion; `chunksOf` instantiates the fuel with
the list length, which the recursion can never exhaust (each step drops
at least one element, see `chunksOf_cons_eq`), so this is exactly the
Rust `chunks` iterator: consecutive slices of 512 bytes, the last one
possibly shorter, and no chunk at all for an empty slice. -/
def chunksOfAux : Nat → List Nat → List (List Nat)
  | 0, _ => []
  | _, [] => []
  | fuel + 1, a :: t =>
    (a :: t).take CHUNK_SIZE :: chunksOfAux fuel ((a :: t).drop CHUNK_SIZE)

def chunksOf (l : List Nat) : List (List Nat) :=
  chunksOfAux l.length l

theorem chunksOfAux_nil : ∀ fuel, chunksOfAux fuel [] = [] := by
  intro fuel
  cases fuel <;> rfl

theorem chunksOfAux_fuel :
    ∀ f1 f2 (l : List Nat), l.length ≤ f1 → l.length ≤ f2 →
      chunksOfAux f1 l = chunksOfAux f2 l := by
  intro f1
  induction f1 with
  | zero =>
    intro f2 l h1 _
    have hl : l = [] := List.length_eq_zero.mp (by omega)
    subst hl
    rw [chunksOfAux_nil, chunksOfAux_nil]
  | succ f ih =>
    intro f2 l h1 h2
    cases l with
    | nil => rw [chunksOfAux_nil, chunksOfAux_nil]
    | cons a t =>
      obtain ⟨m, rfl⟩ : ∃ m, f2 = m + 1 := by
        refine ⟨f2 - 1, ?_⟩
        simp at h2
        omega
      simp only [chunksOfAux]
      refine congrArg _ (ih m _ ?_ ?_)
      all_goals
        simp only [List.length_drop, List.length_cons] at h1 h2 ⊢
        simp only [CHUNK_SIZE]
        omega

theorem chunksOf_cons_eq (a : Nat) (t : List Nat) :
    chunksOf (a :: t) =
      (a :: t).take CHUNK_SIZE :: chunksOf ((a :: t).drop CHUNK_SIZE) := by
  show chunksOfAux (a :: t).length (a :: t) = _
  rw [show (a :: t).length = t.length + 1 from rfl]
  simp only [chunksOfAux]
  refine congrArg _ (chunksOfAux_fuel t.length _ _ ?_ (le_refl _))
  simp only [List.length_drop, List.length_cons]
  simp only [CHUNK_SIZE]
  omega

theorem chunksOf_flatten : ∀ n (l : List Nat), l.length ≤ n →
    (chunksOf l).flatten = l := by
  intro n
  induction n with
  | zero =>
    intro l h
    have hl : l = [] := List.length_eq_zero.mp (by omega)
    subst hl
    rfl
  | succ n ih =>
    intro l h
    cases l with
    | nil => rfl
    | cons a t =>
      rw [chunksOf_cons_eq]
      simp only [List.flatten_cons]
      rw [ih ((a :: t).drop CHUNK_SIZE)
        (by simp only [List.length_drop, List.length_cons] at h ⊢
            simp only [CHUNK_SIZE] at h ⊢
            omega)]
      exact List.take_append_drop _ _

theorem chunksOf_sizes : ∀ n (l : List Nat), l.length ≤ n →
    ∀ c ∈ chunksOf l, 0 < c.length ∧ c.length ≤ CHUNK_SIZE := by
  intro n
  induction n with
  | zero =>
    intro l h c hc
    have hl : l = [] := List.length_eq_zero.mp (by omega)
    subst hl
    simp [chunksOf, chunksOfAux] at hc
  | succ n ih =>
    intro l h c hc
    cases l with
    | nil => simp [chunksOf, chunksOfAux] at hc
    | cons a t =>
      rw [chunksOf_cons_eq, List.mem_cons] at hc
      rcases hc with hc | hc
      · subst hc
        simp only [List.length_take, List.length_cons]
        constructor
        · have : 0 < CHUNK_SIZE := by simp [CHUNK_SIZE]
          omega
        · omega
      · refine ih _ ?_ c hc
        simp only [List.length_drop, List.length_cons] at h ⊢
        simp only [CHUNK_SIZE] at h ⊢
        omega

theorem chunksOf_eq_nil_iff (l : List Nat) : chunksOf l = [] ↔ l = [] := by
  cases l with
  | nil => simp [chunksOf, chunksOfAux]
  | cons a t =>
    rw [chunksOf_cons_eq]
    simp

theorem chunksOf_dropLast : ∀ n (l : List Nat), l.length ≤ n →
    ∀ c ∈ (chunksOf l).dropLast, c.length = CHUNK_SIZE := by
  intro n
  induction n with
  | zero =>
    intro l h c hc
    have hl : l = [] := List.length_eq_zero.mp (by omega)
    subst hl
    simp [chunksOf, chunksOfAux] at hc
  | succ n ih =>
    intro l h c hc
    cases l with
    | nil => simp [chunksOf, chunksOfAux] at hc
    | cons a t =>
      rw [chunksOf_cons_eq] at hc
      by_cases hrest : (a :: t).drop CHUNK_SIZE = []
      · rw [hrest] at hc
        simp [chunksOf, chunksOfAux] at hc
      · have hlen : ((a :: t).drop CHUNK_SIZE).length ≤ n := by
          simp only [List.length_drop, List.length_cons] at h ⊢
          simp only [CHUNK_SIZE] at h ⊢
          omega
        obtain ⟨d, ds, hds⟩ :
            ∃ d ds, chunksOf ((a :: t).drop CHUNK_SIZE) = d :: ds := by
          cases hcn : chunksOf ((a :: t).drop CHUNK_SIZE) with
          | nil => exact absurd ((chunksOf_eq_nil_iff _).mp hcn) hrest
          | cons d ds => exact ⟨d, ds, rfl⟩
        rw [hds, List.dropLast_cons₂, List.mem_cons] at hc
        rcases hc with hc | hc
        · subst hc
          have hlong : CHUNK_SIZE < (a :: t).length := by
            by_contra hle
            exact hrest (List.drop_eq_nil_of_le (by omega))
          simp only [List.length_take, List.length_cons] at hlong ⊢
          omega
        · refine ih _ hlen c ?_
          rw [hds]
          exact hc

end Gimlet

namespace Gimlet

/-- The chunk-transmission loop of `reprogram_fpga` (main.rs lines
274–278): `for chunk in BITSTREAM.chunks(CHUNK_SIZE) {
continue_bitstream_load(chunk)?; }`.  `contOk i` is the outcome of the
i-th `continue_bitstream_load` call; the result is the list of chunks
actually passed to `continue_bitstream_load`, in call order, and whether
all writes succeeded (on the first failure the `?` aborts the loop). -/
def sendChunks (contOk : Nat → Bool) : Nat → List (List Nat) → List (List Nat) × Bool
  | _, [] => ([], true)
  | i, c :: rest =>
    if contOk i then
      let r := sendChunks contOk (i + 1) rest
      (c :: r.1, r.2)
    else ([c], false)

/-- `reprogram_fpga` (main.rs lines 265–281): begin, the chunk loop,
finish.  `beginOk` and `finishOk` are the outcomes of
`begin_bitstream_load` and `finish_bitstream_load`; returns the chunks
passed to `continue_bitstream_load` in call order, and whether the whole
attempt succeeded. -/
def reprogram_fpga (beginOk : Bool) (contOk : Nat → Bool) (finishOk : Bool)
    (bitstream : List Nat) : List (List Nat) × Bool :=
  if beginOk then
    let r := sendChunks contOk 0 (chunksOf bitstream)
    if r.2 then (r.1, finishOk) else (r.1, false)
  else ([], false)

theorem sendChunks_ok (contOk : Nat → Bool) :
    ∀ (cs : List (List Nat)) (i : Nat),
      (sendChunks contOk i cs).2 = true → (sendChunks contOk i cs).1 = cs := by
  intro cs
  induction cs with
  | nil => intro i _; rfl
  | cons c rest ih =>
    intro i h
    by_cases hc : contOk i
    · simp only [sendChunks, hc, if_true] at h ⊢
      exact congrArg _ (ih (i + 1) h)
    · simp [sendChunks, hc] at h

theorem sendChunks_isPrefix (contOk : Nat → Bool) :
    ∀ (cs : List (List Nat)) (i : Nat),
      ∃ rest, (sendChunks contOk i cs).1 ++ rest = cs := by
  intro cs
  induction cs with
  | nil => intro i; exact ⟨[], rfl⟩
  | cons c rest ih =>
    intro i
    by_cases hc : contOk i
    · obtain ⟨rs, hrs⟩ := ih (i + 1)
      exact ⟨rs, by simp only [sendChunks, hc, if_true, List.cons_append, hrs]⟩
    · exact ⟨rest, by simp [sendChunks, hc]⟩

/-- C4: in a `reprogram_fpga` attempt that succeeds, the chunks passed
to `continue_bitstream_load`, concatenated in call order, equal the
original bitstream exactly — they are precisely its 512-byte chunking,
whether or not the bitstream length is a multiple of 512 — every chunk
except possibly the last has size exactly 512 and no chunk is empty or
larger than 512; and in every attempt, successful or aborted, the chunks
passed form a prefix of that chunking: strictly in order, with no
reordering, skipping, or resubmission. -/
theorem reprogram_fpga_chunk_exact (beginOk : Bool) (contOk : Nat → Bool)
    (finishOk : Bool) (bitstream : List Nat)
    (hok : (reprogram_fpga beginOk contOk finishOk bitstream).2 = true) :
    (reprogram_fpga beginOk contOk finishOk bitstream).1 = chunksOf bitstream ∧
    (reprogram_fpga beginOk contOk finishOk bitstream).1.flatten = bitstream ∧
    (∀ c ∈ (reprogram_fpga beginOk contOk finishOk bitstream).1.dropLast,
        c.length = CHUNK_SIZE) ∧
    (∀ c ∈ (reprogram_fpga beginOk contOk finishOk bitstream).1,
        0 < c.length ∧ c.length ≤ CHUNK_SIZE) ∧
    (∀ (beginOk2 finishOk2 : Bool) (contOk2 : Nat → Bool), ∃ rest,
        (reprogram_fpga beginOk2 contOk2 finishOk2 bitstream).1 ++ rest
          = chunksOf bitstream) := by
  have hpre : ∀ (b2 f2 : Bool) (c2 : Nat → Bool), ∃ rest,
      (reprogram_fpga b2 c2 f2 bitstream).1 ++ rest = chunksOf bitstream := by
    intro b2 f2 c2
    by_cases hb : b2
    · obtain ⟨rs, hrs⟩ := sendChunks_isPrefix c2 (chunksOf bitstream) 0
      by_cases hr : (sendChunks c2 0 (chunksOf bitstream)).2
      · exact ⟨rs, by simp only [reprogram_fpga, hb, if_true, hr]; exact hrs⟩
      · exact ⟨rs, by simp only [reprogram_fpga, hb, if_true, hr, if_false]
                      exact hrs⟩
    · exact ⟨chunksOf bitstream, by simp [reprogram_fpga, hb]⟩
  by_cases hb : beginOk
  · by_cases hr : (sendChunks contOk 0 (chunksOf bitstream)).2
    · have h1 : (reprogram_fpga beginOk contOk finishOk bitstream).1
          = chunksOf bitstream := by
        simp only [reprogram_fpga, hb, if_true, hr]
        exact sendChunks_ok contOk (chunksOf bitstream) 0 hr
      refine ⟨h1, ?_, ?_, ?_, hpre⟩
      · rw [h1]
        exact chunksOf_flatten bitstream.length bitstream (le_refl _)
      · rw [h1]
        exact chunksOf_dropLast bitstream.length bitstream (le_refl _)
      · rw [h1]
        exact chunksOf_sizes bitstream.length bitstream (le_refl _)
    · exfalso
      simp [reprogram_fpga, hb, hr] at hok
  · exfalso
    simp [reprogram_fpga, hb] at hok

def bs3 : List Nat := [1, 2, 3]

theorem reprogram_fpga_chunk_exact_witness :
    (reprogram_fpga true (fun _ => true) true bs3).1 = chunksOf bs3 ∧
    (reprogram_fpga true (fun _ => true) true bs3).1.flatten = bs3 ∧
    (∀ c ∈ (reprogram_fpga true (fun _ => true) true bs3).1.dropLast,
        c.length = CHUNK_SIZE) ∧
    (∀ c ∈ (reprogram_fpga true (fun _ => true) true bs3).1,
        0 < c.length ∧ c.length ≤ CHUNK_SIZE) ∧
    (∀ (beginOk2 finishOk2 : Bool) (contOk2 : Nat → Bool), ∃ rest,
        (reprogram_fpga beginOk2 contOk2 finishOk2 bs3).1 ++ rest
          = chunksOf bs3) :=
  reprogram_fpga_chunk_exact true (fun _ => true) true bs3 rfl

end Gimlet

namespace Gimlet

/-- Events of the reprogramming loop of `main` (main.rs lines 203–219):
the k-th call of `reprogram_fpga` with its outcome, and the best-effort
`prog.release()` issued after a failed attempt, with the outcome the
source discards (`let _ = prog.release();`). -/
inductive RetryEv where
  | attempt (k : Nat) (ok : Bool)
  | release (k : Nat) (ok : Bool)
  deriving DecidableEq

/-- The `loop` of main.rs lines 204–219: run `reprogram_fpga`; exit on
success; on failure do a best-effort release whose result is discarded
and retry from the top.  `att k` is the outcome of the k-th attempt and
`rel k` of the k-th release.  The fuel bounds only the model recursion —
the source loop is unbounded — and `none` means the loop has not exited
within `fuel` attempts. -/
def retryLoop (att rel : Nat → Bool) : Nat → Nat → Option (List RetryEv)
  | _, 0 => none
  | k, fuel + 1 =>
    if att k then some [RetryEv.attempt k true]
    else
      match retryLoop att rel (k + 1) fuel with
      | none => none
      | some tr =>
        some (RetryEv.attempt k false :: RetryEv.release k (rel k) :: tr)

/-- Trace of `k` failed attempts starting at attempt counter `p`: each
failure is followed at once by its best-effort release. -/
def failEvs (rel : Nat → Bool) (p : Nat) : Nat → List RetryEv
  | 0 => []
  | k + 1 =>
    RetryEv.attempt p false :: RetryEv.release p (rel p) :: failEvs rel (p + 1) k

/-- Erases the discarded release outcomes from an event. -/
def stripRel : RetryEv → RetryEv
  | RetryEv.release k _ => RetryEv.release k true
  | e => e

theorem retryLoop_all_fail (att rel : Nat → Bool)
    (hfail : ∀ j, att j = false) :
    ∀ fuel p, retryLoop att rel p fuel = none := by
  intro fuel
  induction fuel with
  | zero => intro p; rfl
  | succ f ih =>
    intro p
    simp only [retryLoop, hfail p, Bool.false_eq_true, if_false, ih (p + 1)]

theorem retryLoop_first_success (att rel : Nat → Bool) :
    ∀ (k p fuel : Nat), att (p + k) = true →
      (∀ j, j < k → att (p + j) = false) → k < fuel →
      retryLoop att rel p fuel =
        some (failEvs rel p k ++ [RetryEv.attempt (p + k) true]) := by
  intro k
  induction k with
  | zero =>
    intro p fuel hk _ hfuel
    obtain ⟨f, rfl⟩ : ∃ f, fuel = f + 1 := ⟨fuel - 1, by omega⟩
    simp only [Nat.add_zero] at hk
    simp [retryLoop, hk, failEvs]
  | succ k ih =>
    intro p fuel hk hpre hfuel
    obtain ⟨f, rfl⟩ : ∃ f, fuel = f + 1 := ⟨fuel - 1, by omega⟩
    have h0 : att p = false := by
      have := hpre 0 (Nat.succ_pos k)
      simpa using this
    have hk1 : att (p + 1 + k) = true := by
      rw [show p + 1 + k = p + (k + 1) by omega]
      exact hk
    have hpre1 : ∀ j, j < k → att (p + 1 + j) = false := by
      intro j hj
      rw [show p + 1 + j = p + (j + 1) by omega]
      exact hpre (j + 1) (by omega)
    have hrec := ih (p + 1) f hk1 hpre1 (by omega)
    simp only [retryLoop, h0, Bool.false_eq_true, if_false, hrec, failEvs]
    rw [show p + 1 + k = p + (k + 1) by omega]
    rfl

theorem retryLoop_exit_success (att rel : Nat → Bool) :
    ∀ (fuel p : Nat) (tr : List RetryEv), retryLoop att rel p fuel = some tr →
      ∃ k, att k = true ∧ tr.getLast? = some (RetryEv.attempt k true) := by
  intro fuel
  induction fuel with
  | zero => intro p tr h; simp [retryLoop] at h
  | succ f ih =>
    intro p tr h
    by_cases hp : att p
    · simp only [retryLoop, hp, if_true, Option.some.injEq] at h
      exact ⟨p, hp, by rw [← h]; rfl⟩
    · simp only [retryLoop, hp, Bool.false_eq_true, if_false] at h
      cases hrec : retryLoop att rel (p + 1) f with
      | none => rw [hrec] at h; exact absurd h (by simp)
      | some tr0 =>
        rw [hrec] at h
        obtain ⟨k, hk, hlast⟩ := ih (p + 1) tr0 hrec
        refine ⟨k, hk, ?_⟩
        simp only [Option.some.injEq] at h
        subst h
        have htr0 : tr0 ≠ [] := by
          intro hnil
          rw [hnil] at hlast
          simp at hlast
        rw [List.getLast?_cons_cons]
        cases tr0 with
        | nil => exact absurd rfl htr0
        | cons a l => rw [List.getLast?_cons_cons]; exact hlast

theorem retryLoop_release_blind (att rel1 rel2 : Nat → Bool) :
    ∀ (fuel p : Nat),
      (retryLoop att rel1 p fuel).map (List.map stripRel)
        = (retryLoop att rel2 p fuel).map (List.map stripRel) := by
  intro fuel
  induction fuel with
  | zero => intro p; rfl
  | succ f ih =>
    intro p
    by_cases hp : att p
    · simp [retryLoop, hp]
    · simp only [retryLoop, hp, Bool.false_eq_true, if_false]
      have hrec := ih (p + 1)
      cases h1 : retryLoop att rel1 (p + 1) f with
      | none =>
        cases h2 : retryLoop att rel2 (p + 1) f with
        | none => rfl
        | some tr2 => rw [h1, h2] at hrec; exact absurd hrec (by simp)
      | some tr1 =>
        cases h2 : retryLoop att rel2 (p + 1) f with
        | none => rw [h1, h2] at hrec; exact absurd hrec (by simp)
        | some tr2 =>
          rw [h1, h2] at hrec
          simpa [stripRel] using hrec

/-- C5: contract of the bitstream-loading loop.  (1) If every attempt
fails the loop never exits, for any recursion bound: there is no retry
ceiling and no error is ever surfaced as a terminal result of the
initialization path (the only exit is `some`, which clause (3) shows
ends in a successful attempt).  (2) If the first successful attempt is
attempt `k`, the loop runs attempts `0, …, k` in order, each failure
being followed at once by a best-effort release and a fresh attempt from
`begin`, and exits right after the success.  (3) Whenever the loop
exits, its last event is a successful attempt.  (4) The trace and exit
behaviour are independent of the release outcomes, which the source
discards: a release failure is swallowed, never propagated. -/
theorem retryLoop_contract (att rel rel2 : Nat → Bool) :
    ((∀ j, att j = false) → ∀ fuel, retryLoop att rel 0 fuel = none) ∧
    (∀ k fuel, att k = true → (∀ j, j < k → att j = false) → k < fuel →
      retryLoop att rel 0 fuel =
        some (failEvs rel 0 k ++ [RetryEv.attempt k true])) ∧
    (∀ fuel tr, retryLoop att rel 0 fuel = some tr →
      ∃ k, att k = true ∧ tr.getLast? = some (RetryEv.attempt k true)) ∧
    (∀ fuel, (retryLoop att rel 0 fuel).map (List.map stripRel)
        = (retryLoop att rel2 0 fuel).map (List.map stripRel)) := by
  refine ⟨fun hf fuel => retryLoop_all_fail att rel hf fuel 0, ?_, ?_, ?_⟩
  · intro k fuel hk hpre hfuel
    have h := retryLoop_first_success att rel k 0 fuel
      (by simpa using hk) (fun j hj => by simpa using hpre j hj) hfuel
    simpa using h
  · intro fuel tr h
    exact retryLoop_exit_success att rel fuel 0 tr h
  · intro fuel
    exact retryLoop_release_blind att rel rel2 fuel 0

def attOnce : Nat → Bool := fun k => k != 0

def relFail : Nat → Bool := fun _ => false

theorem retryLoop_contract_witness :
    retryLoop attOnce relFail 0 3 =
      some (failEvs relFail 0 1 ++ [RetryEv.attempt 1 true]) :=
  (retryLoop_contract attOnce relFail relFail).2.1 1 3 (by decide)
    (fun j hj => by interval_cases j; decide) (by decide)

end Gimlet

namespace Gimlet

/-- Events of the rail bring-up in `main` (main.rs lines 90–135):
asserting a rail enable via `set_reset`, a `sleep_for`, and a read of a
rail power-good input.  Rail 1 is V1P2, rail 2 is V3P3. -/
inductive RailEv where
  | enableRail (r : Nat)
  | sleep (d : Nat)
  | readPg (r : Nat) (asserted : Bool)
  deriving DecidableEq

/-- The power-good polling loop (main.rs lines 101–112 and 121–130):
read the PG input; exit if asserted; otherwise sleep 2 and poll again,
with no upper bound on retries.  `pg i` is the i-th read of the input;
the fuel bounds only the model recursion (the source loop is unbounded)
and `none` means the loop has not exited within `fuel` reads. -/
def pollPg (r : Nat) : (Nat → Bool) → Nat → Option (List RailEv)
  | _, 0 => none
  | pg, fuel + 1 =>
    if pg 0 then some [RailEv.readPg r true]
    else
      match pollPg r (fun n => pg (n + 1)) fuel with
      | none => none
      | some tr => some (RailEv.readPg r false :: RailEv.sleep 2 :: tr)

/-- Trace of `k` deasserted power-good reads, each followed by the
2-time-unit retry sleep. -/
def pgEvs (r : Nat) : Nat → List RailEv
  | 0 => []
  | k + 1 => RailEv.readPg r false :: RailEv.sleep 2 :: pgEvs r k

/-- The rail bring-up sequence of `main` (main.rs lines 90–135): enable
V1P2, settle 2 time-units, poll its PG until asserted; then enable V3P3,
settle 2, poll its PG until asserted; then the final sleep_for(1 + 10)
for V2P5 and the iCE40.  `pg1 i` and `pg2 i` are the i-th reads of the
two power-good inputs. -/
def rail_bringup (pg1 pg2 : Nat → Bool) (fuel : Nat) : Option (List RailEv) :=
  match pollPg 1 pg1 fuel with
  | none => none
  | some t1 =>
    match pollPg 2 pg2 fuel with
    | none => none
    | some t2 =>
      some ([RailEv.enableRail 1, RailEv.sleep 2] ++ t1 ++
            [RailEv.enableRail 2, RailEv.sleep 2] ++ t2 ++ [RailEv.sleep 11])

theorem pollPg_never (r : Nat) :
    ∀ (fuel : Nat) (pg : Nat → Bool), (∀ k, pg k = false) →
      pollPg r pg fuel = none := by
  intro fuel
  induction fuel with
  | zero => intro pg _; rfl
  | succ f ih =>
    intro pg hf
    simp only [pollPg, hf 0, Bool.false_eq_true, if_false,
      ih (fun n => pg (n + 1)) (fun k => hf (k + 1))]

theorem pollPg_first (r : Nat) :
    ∀ (k : Nat) (pg : Nat → Bool) (fuel : Nat), pg k = true →
      (∀ j, j < k → pg j = false) → k < fuel →
      pollPg r pg fuel = some (pgEvs r k ++ [RailEv.readPg r true]) := by
  intro k
  induction k with
  | zero =>
    intro pg fuel hk _ hfuel
    obtain ⟨f, rfl⟩ : ∃ f, fuel = f + 1 := ⟨fuel - 1, by omega⟩
    simp [pollPg, hk, pgEvs]
  | succ k ih =>
    intro pg fuel hk hpre hfuel
    obtain ⟨f, rfl⟩ : ∃ f, fuel = f + 1 := ⟨fuel - 1, by omega⟩
    have h0 : pg 0 = false := hpre 0 (Nat.succ_pos k)
    have hrec := ih (fun n => pg (n + 1)) f hk
      (fun j hj => hpre (j + 1) (by omega)) (by omega)
    simp only [pollPg, h0, Bool.false_eq_true, if_false, hrec]
    rfl

theorem pollPg_mem_true (r : Nat) :
    ∀ (fuel : Nat) (pg : Nat → Bool) (tr : List RailEv),
      pollPg r pg fuel = some tr → RailEv.readPg r true ∈ tr := by
  intro fuel
  induction fuel with
  | zero => intro pg tr h; simp [pollPg] at h
  | succ f ih =>
    intro pg tr h
    by_cases h0 : pg 0
    · simp only [pollPg, h0, if_true, Option.some.injEq] at h
      rw [← h]
      simp
    · simp only [pollPg, h0, Bool.false_eq_true, if_false] at h
      cases hrec : pollPg r (fun n => pg (n + 1)) f with
      | none => rw [hrec] at h; exact absurd h (by simp)
      | some tr0 =>
        rw [hrec] at h
        simp only [Option.some.injEq] at h
        rw [← h]
        have hm := ih (fun n => pg (n + 1)) tr0 hrec
        simp [hm]

theorem pollPg_some_pg (r : Nat) :
    ∀ (fuel : Nat) (pg : Nat → Bool) (tr : List RailEv),
      pollPg r pg fuel = some tr → ∃ k, pg k = true := by
  intro fuel
  induction fuel with
  | zero => intro pg tr h; simp [pollPg] at h
  | succ f ih =>
    intro pg tr h
    by_cases h0 : pg 0
    · exact ⟨0, h0⟩
    · simp only [pollPg, h0, Bool.false_eq_true, if_false] at h
      cases hrec : pollPg r (fun n => pg (n + 1)) f with
      | none => rw [hrec] at h; exact absurd h (by simp)
      | some tr0 =>
        obtain ⟨k, hk⟩ := ih (fun n => pg (n + 1)) tr0 hrec
        exact ⟨k + 1, hk⟩

/-- C6: contract of the ordered rail bring-up.  (1) In every terminating
bring-up trace, the enable of the later rail (V3P3) is preceded by an
observed asserted read of the earlier rail's (V1P2) power-good input: a
later rail is only enabled after the earlier rail's power-good is seen
asserted.  (2) A terminating bring-up observed both power-good inputs
asserted.  (3) If V1P2's power-good never asserts, the bring-up never
completes, for any recursion bound: the poll has no retry ceiling and
the sequencer never proceeds past the rail.  (4) If the power-good
inputs first assert at reads `k1` and `k2`, the trace is exactly:
enable V1P2, settle sleep 2, `k1` deasserted reads each followed by a
2-unit retry sleep, the asserted read, then the same for V3P3, then the
final sleep of 1 + 10 units. -/
theorem rail_bringup_ordered (pg1 pg2 : Nat → Bool) :
    (∀ fuel tr, rail_bringup pg1 pg2 fuel = some tr →
      ∃ pre post, tr = pre ++ RailEv.enableRail 2 :: post ∧
        RailEv.readPg 1 true ∈ pre) ∧
    (∀ fuel tr, rail_bringup pg1 pg2 fuel = some tr →
      (∃ k, pg1 k = true) ∧ (∃ k, pg2 k = true)) ∧
    ((∀ k, pg1 k = false) → ∀ fuel, rail_bringup pg1 pg2 fuel = none) ∧
    (∀ k1 k2 fuel, pg1 k1 = true → (∀ j, j < k1 → pg1 j = false) →
      pg2 k2 = true → (∀ j, j < k2 → pg2 j = false) →
      k1 < fuel → k2 < fuel →
      rail_bringup pg1 pg2 fuel =
        some ([RailEv.enableRail 1, RailEv.sleep 2] ++
              (pgEvs 1 k1 ++ [RailEv.readPg 1 true]) ++
              [RailEv.enableRail 2, RailEv.sleep 2] ++
              (pgEvs 2 k2 ++ [RailEv.readPg 2 true]) ++ [RailEv.sleep 11])) := by
  refine ⟨?_, ?_, ?_, ?_⟩
  · intro fuel tr h
    cases h1 : pollPg 1 pg1 fuel with
    | none => simp [rail_bringup, h1] at h
    | some t1 =>
      cases h2 : pollPg 2 pg2 fuel with
      | none => simp [rail_bringup, h1, h2] at h
      | some t2 =>
        simp only [rail_bringup, h1, h2, Option.some.injEq] at h
        refine ⟨RailEv.enableRail 1 :: RailEv.sleep 2 :: t1,
          RailEv.sleep 2 :: (t2 ++ [RailEv.sleep 11]), ?_, ?_⟩
        · rw [← h]
          simp
        · have hm := pollPg_mem_true 1 fuel pg1 t1 h1
          simp [hm]
  · intro fuel tr h
    cases h1 : pollPg 1 pg1 fuel with
    | none => simp [rail_bringup, h1] at h
    | some t1 =>
      cases h2 : pollPg 2 pg2 fuel with
      | none => simp [rail_bringup, h1, h2] at h
      | some t2 =>
        exact ⟨pollPg_some_pg 1 fuel pg1 t1 h1, pollPg_some_pg 2 fuel pg2 t2 h2⟩
  · intro hf fuel
    simp [rail_bringup, pollPg_never 1 fuel pg1 hf]
  · intro k1 k2 fuel hk1 hpre1 hk2 hpre2 hf1 hf2
    rw [rail_bringup, pollPg_first 1 k1 pg1 fuel hk1 hpre1 hf1,
      pollPg_first 2 k2 pg2 fuel hk2 hpre2 hf2]

def pgNow : Nat → Bool := fun _ => true

theorem rail_bringup_ordered_witness :
    rail_bringup pgNow pgNow 1 =
      some ([RailEv.enableRail 1, RailEv.sleep 2] ++
            (pgEvs 1 0 ++ [RailEv.readPg 1 true]) ++
            [RailEv.enableRail 2, RailEv.sleep 2] ++
            (pgEvs 2 0 ++ [RailEv.readPg 2 true]) ++ [RailEv.sleep 11]) :=
  (rail_bringup_ordered pgNow pgNow).2.2.2 0 0 1 rfl
    (fun j hj => absurd hj (Nat.not_lt_zero j)) rfl
    (fun j hj => absurd hj (Nat.not_lt_zero j)) (by decide) (by decide)

end Gimlet
